import Mathlib

/-!
Verification of the chunking engine and retrieval pipeline of the
rag-chatbot-builder repository, as a shallow embedding in Lean 4.

Sources embedded here:
- `src/ingestion/chunking_preprocessing.py` (class TextChunker:
  `normalize_text`, `split_by_paragraph`, `_split_long_text`, `__init__`);
- `src/ingestion/user_upload_chunking.py` (module-level `normalize_text`,
  `split_long_text`);
- `src/rag/retriever.py` (class Retriever: `retrieve`,
  `retrieve_with_context`);
- `src/rag/query_optimizer.py` (class HybridRetriever:
  `retrieve_with_expansion`, `retrieve_with_fallback`).

Python strings are modelled as `List Char`; Python slice/rfind/strip
semantics are embedded explicitly below.  Scores (Python floats) are
modelled as rationals.  External collaborators (embedding provider,
Qdrant client, LLM paraphrase provider) are modelled as environments of
`Except`-valued operations: `.error` represents the collaborator raising
an exception.
-/

namespace Rag

/-! ## Python string primitives -/

/-- Python whitespace predicate (the characters matched by the regex
class backslash-s and stripped by `str.strip()`): space, tab, newline,
carriage return, vertical tab, form feed. -/
def isSpaceChar (c : Char) : Bool :=
  c = ' ' || c = '\t' || c = '\n' || c = '\r' || c = '\x0b' || c = '\x0c'

/-- Clamp one Python slice index (possibly negative) to `[0, n]`,
following CPython semantics: negative indices count from the end. -/
def pyIdx (n : Nat) (i : Int) : Nat :=
  if i < 0 then ((n : Int) + i).toNat else min i.toNat n

/-- Python slice `s[a:b]` (step 1) on a list of characters. -/
def pySlice (s : List Char) (a b : Int) : List Char :=
  (s.take (pyIdx s.length b)).drop (pyIdx s.length a)

/-- Helper for `rfind`: scan left to right, remembering the index of the
last occurrence seen (`best`), starting with the sentinel `-1`. -/
def rfindAux (ch : Char) : List Char → Int → Int → Int
  | [], _, best => best
  | c :: cs, i, best => rfindAux ch cs (i + 1) (if c = ch then i else best)

/-- Python `s.rfind(ch)`: highest index of `ch` in `s`, `-1` if absent. -/
def rfind (ch : Char) (s : List Char) : Int :=
  rfindAux ch s 0 (-1)

/-- Drop trailing whitespace (the right half of Python `str.strip()`). -/
def dropTrailingSpaces : List Char → List Char
  | [] => []
  | c :: cs =>
    let r := dropTrailingSpaces cs
    if r = [] && isSpaceChar c then [] else c :: r

/-- Python `s.strip()`: remove leading and trailing whitespace. -/
def stripChars (l : List Char) : List Char :=
  dropTrailingSpaces (l.dropWhile isSpaceChar)

/-! ## The sliding-window splitter

Embeds `split_long_text(text, chunk_size, chunk_overlap)` from
`src/ingestion/user_upload_chunking.py`; the method
`TextChunker._split_long_text` in
`src/ingestion/chunking_preprocessing.py` is the same code reading the
sizes from `self`, and is given below as a wrapper.

The loop body computes `end = start + chunk_size`, takes
`chunk = text[start:end]`, and, when `end < len(text)`, snaps the cut to
just after the last period (else last comma) of the chunk whenever that
position lies within the final 100 characters of the chunk
(`last_period > len(chunk) - 100`).  `snapEnd` returns the resulting
`end`; the emitted chunk is `text[start:end].strip()` and the next start
is `end - chunk_overlap`.

The `while start < len(text) ... if start >= len(text): break` loop is
embedded with explicit fuel: `none` means the fuel was exhausted before
the loop exited, so exhaustion at every fuel is non-termination. -/

/-- The boundary-snap computation of one loop iteration. -/
def snapEnd (text : List Char) (chunk_size start : Int) : Int :=
  let e0 := start + chunk_size
  let chunk := pySlice text start e0
  if e0 < (text.length : Int) then
    let last_period := rfind '.' chunk
    let last_comma := rfind ',' chunk
    if last_period > (chunk.length : Int) - 100 then start + last_period + 1
    else if last_comma > (chunk.length : Int) - 100 then start + last_comma + 1
    else e0
  else e0

/-- The splitter loop, with fuel. -/
def splitLoop (text : List Char) (chunk_size chunk_overlap : Int) :
    Nat → Int → List (List Char) → Option (List (List Char))
  | 0, start, acc =>
    if start ≥ (text.length : Int) then some acc else none
  | fuel + 1, start, acc =>
    if start ≥ (text.length : Int) then some acc
    else
      let e := snapEnd text chunk_size start
      let chunk := pySlice text start e
      splitLoop text chunk_size chunk_overlap fuel (e - chunk_overlap)
        (acc ++ [stripChars chunk])

/-- Embedding of `split_long_text`, fuel-indexed. -/
def split_long_text (fuel : Nat) (text : List Char)
    (chunk_size chunk_overlap : Int) : Option (List (List Char)) :=
  if (text.length : Int) ≤ chunk_size then some [text]
  else splitLoop text chunk_size chunk_overlap fuel 0 []

/-! ## TextChunker -/

/-- State created by `TextChunker.__init__(chunk_size, chunk_overlap)`.
The constructor stores the two sizes and initialises the chunk list;
note that it performs no validation of the configuration. -/
structure TextChunker where
  chunk_size : Int
  chunk_overlap : Int
  chunks : List (List Char)

/-- Embedding of `TextChunker.__init__` (defaults `chunk_size=512`,
`chunk_overlap=50`). -/
def TextChunker.init (chunk_size chunk_overlap : Int) : TextChunker :=
  { chunk_size := chunk_size, chunk_overlap := chunk_overlap, chunks := [] }

/-- Embedding of `TextChunker._split_long_text`, reading the configuration from the
instance. -/
def TextChunker.splitLongText (tc : TextChunker) (fuel : Nat)
    (text : List Char) : Option (List (List Char)) :=
  split_long_text fuel text tc.chunk_size tc.chunk_overlap

/-! ## The normalizer

`TextChunker.normalize_text` in `chunking_preprocessing.py` (identical
to module-level `normalize_text` in `user_upload_chunking.py`):
lowercase, replace every character outside the class
`[a-z0-9 whitespace , . - _]` by a space, collapse whitespace runs to a
single space, strip.  `str.lower()` is modelled on the ASCII range;
characters outside it are replaced by a space in the next step either
way. -/

/-- Python `str.lower()` restricted to ASCII letters. -/
def pyToLower (c : Char) : Char :=
  if 65 ≤ c.toNat ∧ c.toNat ≤ 90 then Char.ofNat (c.toNat + 32) else c

/-- The character class kept by the substitution
`re.sub` of `[^a-z0-9 backslash-s , . - _]` with a space: lowercase
ASCII letters, digits, whitespace, comma, period, hyphen, underscore. -/
def isKeptChar (c : Char) : Bool :=
  (97 ≤ c.toNat && c.toNat ≤ 122) || (48 ≤ c.toNat && c.toNat ≤ 57) ||
    isSpaceChar c || c = ',' || c = '.' || c = '-' || c = '_'

/-- First substitution: every disallowed character becomes a space. -/
def keepAllowed (l : List Char) : List Char :=
  l.map (fun c => if isKeptChar c then c else ' ')

/-- Second substitution, `re.sub` of one-or-more whitespace with a
single space: the flag records whether the previous character belonged
to a whitespace run (whose single replacement space has already been
emitted). -/
def collapseAux : Bool → List Char → List Char
  | _, [] => []
  | prev, c :: cs =>
    if isSpaceChar c then
      if prev then collapseAux true cs else ' ' :: collapseAux true cs
    else c :: collapseAux false cs

/-- Collapse every whitespace run to a single space. -/
def collapseSpaces (l : List Char) : List Char :=
  collapseAux false l

/-- Embedding of `normalize_text` on character lists. -/
def normalizeChars (l : List Char) : List Char :=
  stripChars (collapseSpaces (keepAllowed (l.map pyToLower)))

/-- Embedding of `TextChunker.normalize_text` / `normalize_text` on strings (the
null-input guard of the Python code is outside the string domain). -/
def normalize_text (s : String) : String :=
  ⟨normalizeChars s.data⟩

/-! ## split_by_paragraph

`TextChunker.split_by_paragraph(text)`: split on newline, normalize
each paragraph, keep it only when the normalized text is non-empty and
longer than 10 characters, then window-split it into chunk records. -/

/-- A chunk record as built by `split_by_paragraph` (the `metadata`
argument defaults to the empty mapping and is omitted). -/
structure Chunk where
  chunk_id : String
  paragraph_index : Nat
  chunk_index : Nat
  text : List Char
  chunk_length : Nat
  token_count : Nat
  deriving Repr, DecidableEq

/-- Python `text.split(sep)` for a one-character separator: split at
every occurrence, keeping empty pieces. -/
def splitOnChar (sep : Char) : List Char → List (List Char)
  | [] => [[]]
  | c :: cs =>
    let r := splitOnChar sep cs
    if c = sep then [] :: r
    else match r with
      | [] => [[c]]
      | p :: ps => (c :: p) :: ps

/-- The chunk records emitted for one surviving paragraph. -/
def paraChunks (idx : Nat) (pieces : List (List Char)) : List Chunk :=
  (List.range pieces.length).zip pieces |>.map fun ci =>
    { chunk_id := "para_" ++ toString idx ++ "_chunk_" ++ toString ci.1
      paragraph_index := idx
      chunk_index := ci.1
      text := ci.2
      chunk_length := ci.2.length
      token_count := ci.2.length / 4 }

/-- The per-paragraph loop of `split_by_paragraph`.  `none` propagates
fuel exhaustion of the window splitter. -/
def paraLoop (tc : TextChunker) (fuel : Nat) :
    Nat → List (List Char) → Option (List Chunk)
  | _, [] => some []
  | idx, p :: ps =>
    let np := normalizeChars p
    if np ≠ [] ∧ (np.length : Int) > 10 then
      match tc.splitLongText fuel np with
      | none => none
      | some pieces =>
        match paraLoop tc fuel (idx + 1) ps with
        | none => none
        | some rest => some (paraChunks idx pieces ++ rest)
    else paraLoop tc fuel (idx + 1) ps

/-- Embedding of `TextChunker.split_by_paragraph`. -/
def TextChunker.split_by_paragraph (tc : TextChunker) (fuel : Nat)
    (text : List Char) : Option (List Chunk) :=
  paraLoop tc fuel 0 (splitOnChar '\n' text)

/-! ## Retriever (`src/rag/retriever.py`)

`Retriever.retrieve(query, top_k)` runs inside a try/except that
converts any exception to the empty list.  The collaborators touched in
one call are modelled as an environment of `Except`-valued results:
`getClient` (the `get_qdrant_client` call), `collectionInfo` (the
`points_count` reported by `get_collection_info`, guarded by its own
inner try/except), `embed` (the query embedding), `searchNoThresh` (the
diagnostic search with `top_k = 2k` and no threshold) and
`searchThresh` (the primary search with `top_k = k` and
`score_threshold = min_score`).  `.error` means the call raised. -/

/-- One raw search hit as returned by `QdrantVectorStore.search`:
id, score, text, and the full payload as metadata. -/
structure Hit where
  id : String
  score : ℚ
  text : String
  metadata : List (String × String)
  deriving Repr, DecidableEq

/-- A formatted retrieval result as returned by `Retriever.retrieve`;
`query_variation` is the tag added later by
`HybridRetriever.retrieve_with_expansion` (absent, i.e. `none`, on
results coming straight out of `retrieve`). -/
structure RetrievalResult where
  chunk_id : String
  text : String
  metadata : List (String × String)
  score : ℚ
  query_variation : Option Nat
  deriving Repr, DecidableEq

/-- The per-call behaviour of the collaborators of the retriever. -/
structure REnv where
  getClient : Except Unit Unit
  collectionInfo : Except Unit Nat
  embed : Except Unit (List ℚ)
  searchNoThresh : Except Unit (List Hit)
  searchThresh : Except Unit (List Hit)

/-- The mutable fields of a `Retriever` instance that `retrieve` reads:
`top_k` and `min_score` (the transient `client` field is `None` again on
every exit path via the `finally` block and is not modelled). -/
structure RState where
  top_k : Nat
  min_score : ℚ
  deriving Repr, DecidableEq

/-- Formatting of one hit (strips the `text` key out of the metadata
blob). -/
def formatResult (r : Hit) : RetrievalResult :=
  { chunk_id := r.id
    text := r.text
    metadata := r.metadata.filter (fun kv => kv.1 ≠ "text")
    score := r.score
    query_variation := none }

/-- The `filtered_results` variable of `Retriever.retrieve`: the
diagnostic hits at or above `min_score`; when that filter removes
everything but the diagnostic search itself was non-empty, the first
`k` raw diagnostic hits are kept instead ("returning top results anyway
for debugging"); when the diagnostic search is empty, the empty list. -/
def filteredResults (allRes : List Hit) (min_score : ℚ) (k : Nat) :
    List Hit :=
  if allRes ≠ [] then
    let f := allRes.filter (fun r => min_score ≤ r.score)
    if f = [] then allRes.take k else f
  else []

/-- Embedding of `Retriever.retrieve`.  Returns the formatted results; every
exception raised by a collaborator is caught and converted to `[]`. -/
def retrieve (env : REnv) (st : RState) (top_k : Option Nat) :
    List RetrievalResult :=
  let k := top_k.getD st.top_k
  match env.getClient with
  | .error _ => []
  | .ok _ =>
    match env.collectionInfo with
    | .error _ => []
    | .ok vector_count =>
      if vector_count = 0 then []
      else
        match env.embed with
        | .error _ => []
        | .ok emb =>
          if emb = [] then []
          else
            match env.searchNoThresh with
            | .error _ => []
            | .ok allRes =>
              let filtered := filteredResults allRes st.min_score k
              match env.searchThresh with
              | .error _ => []
              | .ok primary =>
                let search_results :=
                  if primary = [] ∧ filtered ≠ [] then filtered.take k
                  else primary
                search_results.map formatResult

/-- Summary record returned by `Retriever.retrieve_with_context`. -/
structure ContextResult where
  query : String
  num_results : Nat
  results : List RetrievalResult
  avg_score : ℚ
  top_score : ℚ
  deriving Repr, DecidableEq

/-- Embedding of `Retriever.retrieve_with_context`: wraps `retrieve`, guarding the
average and the top score by emptiness checks. -/
def retrieve_with_context (env : REnv) (st : RState) (query : String)
    (top_k : Option Nat) : ContextResult :=
  let results := retrieve env st top_k
  { query := query
    num_results := results.length
    results := results
    avg_score :=
      if results ≠ [] then
        (results.map RetrievalResult.score).sum / results.length
      else 0
    top_score :=
      match results with
      | [] => 0
      | r :: _ => r.score }

/-! ## HybridRetriever (`src/rag/query_optimizer.py`)

`HybridRetriever` drives the base `Retriever` through query expansion
and the 4-tier fallback ladder.  At this layer the base retriever and
the query optimizer are the collaborators: `retrieveFn` is
`base_retriever.retrieve` as a function of the instance state (its
`min_score` matters because tier 4 mutates it), the query, and the
`top_k` argument; `.error` means that call raised.  `expandFn` is
`QueryOptimizer.expand_query` (which never raises: it catches LLM
failures internally and falls back to keywords) and `extractKeywordsFn`
is `QueryOptimizer._extract_keywords` (pure; modelled as part of the
environment because its set-iteration join order is
implementation-defined). -/

/-- Collaborators of `HybridRetriever`. -/
structure HEnv where
  retrieveFn : RState → String → Nat → Except Unit (List RetrievalResult)
  expandFn : String → List String
  extractKeywordsFn : String → String

/-- Stable insertion of one result into a list sorted by descending
score (ties keep their existing order, as the stable Python `list.sort`
with `reverse=True` does). -/
def insertByScoreDesc (x : RetrievalResult) :
    List RetrievalResult → List RetrievalResult
  | [] => [x]
  | y :: ys =>
    if y.score < x.score then x :: y :: ys else y :: insertByScoreDesc x ys

/-- The full sort step: sort by the score field, descending, stable. -/
def sortByScoreDesc : List RetrievalResult → List RetrievalResult
  | [] => []
  | x :: xs => insertByScoreDesc x (sortByScoreDesc xs)

/-- Deduplicating accumulation of the results of one variant: a result whose
`chunk_id` was already seen is skipped, otherwise it is tagged with the
1-based variant index and appended. -/
def dedupAdd (i : Nat) (seen : List String) (acc : List RetrievalResult) :
    List RetrievalResult → List String × List RetrievalResult
  | [] => (seen, acc)
  | r :: rs =>
    if r.chunk_id ∈ seen then dedupAdd i seen acc rs
    else
      dedupAdd i (seen ++ [r.chunk_id])
        (acc ++ [{ r with query_variation := some i }]) rs

/-- The per-variant loop of `retrieve_with_expansion`; an exception
from the base retriever propagates. -/
def expansionLoop (env : HEnv) (st : RState) (k : Nat) :
    Nat → List String → List String → List RetrievalResult →
      Except Unit (List RetrievalResult)
  | _, [], _, acc => .ok acc
  | i, q :: qs, seen, acc =>
    match env.retrieveFn st q k with
    | .error e => .error e
    | .ok results =>
      let sa := dedupAdd i seen acc results
      expansionLoop env st k (i + 1) qs sa.1 sa.2

/-- Embedding of `HybridRetriever.retrieve_with_expansion` with `use_expansion=True`
(as invoked by the fallback ladder): retrieve for every variant,
deduplicate by `chunk_id`, sort by score descending, return the first
`2*top_k`. -/
def retrieve_with_expansion (env : HEnv) (st : RState) (query : String)
    (top_k : Nat) : Except Unit (List RetrievalResult) :=
  match expansionLoop env st top_k 1 (env.expandFn query) [] [] with
  | .error e => .error e
  | .ok acc => .ok ((sortByScoreDesc acc).take (top_k * 2))

/-- Embedding of `HybridRetriever.retrieve_with_fallback`.  Returns the result (or
the propagated exception), the final state of the base retriever, and
the trace of tier numbers invoked, in order.  Tier 4 overwrites
`min_score` with `0.2` before its retrieve call and writes back the
saved value afterwards; that write-back is a plain assignment placed
after the call, so an exception from the tier-4 call leaves `min_score`
at `0.2`. -/
def retrieve_with_fallback (env : HEnv) (st : RState) (query : String)
    (top_k : Nat) :
    Except Unit (List RetrievalResult) × RState × List Nat :=
  match env.retrieveFn st query top_k with
  | .error e => (.error e, st, [1])
  | .ok r1 =>
    if r1 ≠ [] then (.ok r1, st, [1])
    else
      match retrieve_with_expansion env st query top_k with
      | .error e => (.error e, st, [1, 2])
      | .ok r2 =>
        if r2 ≠ [] then (.ok r2, st, [1, 2])
        else
          let keywords := env.extractKeywordsFn query
          match env.retrieveFn st keywords top_k with
          | .error e => (.error e, st, [1, 2, 3])
          | .ok r3 =>
            if r3 ≠ [] then (.ok r3, st, [1, 2, 3])
            else
              let original_threshold := st.min_score
              let st2 : RState := { st with min_score := (2 : ℚ) / 10 }
              match env.retrieveFn st2 query (top_k * 2) with
              | .error e => (.error e, st2, [1, 2, 3, 4])
              | .ok r4 =>
                (.ok r4, { st2 with min_score := original_threshold },
                  [1, 2, 3, 4])

/-! ## Theorems -/

/-- C10: `retrieve_with_context` never fails on an empty retrieval:
whenever `retrieve` returns the empty list, the summary record carries
`num_results = 0`, `avg_score = 0.0` and `top_score = 0.0` (both
aggregate expressions are guarded by emptiness checks in the source, so
no division by zero or head-of-empty access can occur; the embedding is
a total function). -/
theorem retrieve_with_context_empty (env : REnv) (st : RState)
    (query : String) (top_k : Option Nat)
    (h : retrieve env st top_k = []) :
    (retrieve_with_context env st query top_k).num_results = 0 ∧
      (retrieve_with_context env st query top_k).avg_score = 0 ∧
      (retrieve_with_context env st query top_k).top_score = 0 := by
  simp [retrieve_with_context, h]

/-- Environment of a retrieval call against an empty collection. -/
def envEmptyColl : REnv :=
  { getClient := .ok ()
    collectionInfo := .ok 0
    embed := .ok []
    searchNoThresh := .ok []
    searchThresh := .ok [] }

/-- Witness for C10 at a concrete empty retrieval. -/
theorem retrieve_with_context_empty_witness :
    retrieve envEmptyColl ⟨5, 7/10⟩ none = [] ∧
      (retrieve_with_context envEmptyColl ⟨5, 7/10⟩ "q" none).num_results
          = 0 ∧
        (retrieve_with_context envEmptyColl ⟨5, 7/10⟩ "q" none).avg_score
            = 0 ∧
          (retrieve_with_context envEmptyColl ⟨5, 7/10⟩ "q" none).top_score
              = 0 :=
  ⟨rfl, retrieve_with_context_empty envEmptyColl ⟨5, 7/10⟩ "q" none rfl⟩

/-- C6: `Retriever.retrieve` converts every collaborator exception into
an empty result list.  The embedding of `retrieve` is a total function
into `List RetrievalResult` (the surrounding try/except is part of the
definition), so no exception ever reaches the caller; this theorem
states the remaining content of the claim: whenever the embedding call
or either search call raises, the result is the empty list. -/
theorem retrieve_empty_on_collaborator_error (env : REnv) (st : RState)
    (top_k : Option Nat)
    (h : env.embed.isOk = false ∨ env.searchNoThresh.isOk = false ∨
      env.searchThresh.isOk = false) :
    retrieve env st top_k = [] := by
  unfold retrieve
  cases hg : env.getClient with
  | error e => rfl
  | ok u =>
    cases hc : env.collectionInfo with
    | error e => rfl
    | ok vc =>
      rcases Nat.eq_zero_or_pos vc with hvc | hvc
      · simp [hvc]
      · cases he : env.embed with
        | error e => simp [Nat.pos_iff_ne_zero.mp hvc]
        | ok emb =>
          cases hs1 : env.searchNoThresh with
          | error e => simp [Nat.pos_iff_ne_zero.mp hvc]
          | ok allRes =>
            cases hs2 : env.searchThresh with
            | error e => simp [Nat.pos_iff_ne_zero.mp hvc]
            | ok primary =>
              exfalso
              rcases h with h | h | h
              · rw [he] at h; simp [Except.isOk, Except.toBool] at h
              · rw [hs1] at h; simp [Except.isOk, Except.toBool] at h
              · rw [hs2] at h; simp [Except.isOk, Except.toBool] at h

/-- Environment whose embedding call raises. -/
def envEmbedRaises : REnv :=
  { getClient := .ok ()
    collectionInfo := .ok 5
    embed := .error ()
    searchNoThresh := .ok []
    searchThresh := .ok [] }

/-- Witness for C6 at a concrete raising collaborator. -/
theorem retrieve_empty_on_collaborator_error_witness :
    envEmbedRaises.embed.isOk = false ∧
      retrieve envEmbedRaises ⟨5, 7/10⟩ none = [] :=
  ⟨rfl, retrieve_empty_on_collaborator_error envEmbedRaises ⟨5, 7/10⟩ none
    (Or.inl rfl)⟩

/-- Counterexample to C7: the code performs no validation at all.
`TextChunker.__init__(chunk_size=4, chunk_overlap=4)` (an invalid
configuration, `overlap >= window_size`) returns a normally constructed
instance with the values stored unchanged — in the source there is no
raise statement and no check of the two sizes — and the window splitter
then returns a normal result on a short text instead of failing fast. -/
theorem chunker_init_no_validation_counterexample :
    TextChunker.init 4 4 =
        { chunk_size := 4, chunk_overlap := 4, chunks := [] } ∧
      (TextChunker.init 4 4).splitLongText 1 "abc".data =
        some ["abc".data] := by
  constructor
  · rfl
  · rfl

/-- C7 amended: invoking the window splitter with
`overlap >= window_size` does not raise: the constructor stores the
configuration unvalidated, and on any text no longer than `window_size`
the splitter returns the single-window result normally (on longer texts
the loop may instead fail to terminate; no configuration error exists
anywhere on the path). -/
theorem chunker_accepts_invalid_overlap (chunk_size chunk_overlap : Int)
    (h : chunk_overlap ≥ chunk_size) :
    (TextChunker.init chunk_size chunk_overlap).chunk_size = chunk_size ∧
      (TextChunker.init chunk_size chunk_overlap).chunk_overlap
          = chunk_overlap ∧
        ∀ text : List Char, (text.length : Int) ≤ chunk_size →
          ∀ fuel,
            (TextChunker.init chunk_size chunk_overlap).splitLongText
              fuel text = some [text] := by
  refine ⟨rfl, rfl, fun text hlen fuel => ?_⟩
  unfold TextChunker.splitLongText split_long_text
  simp [TextChunker.init, hlen]

/-- Witness for C7 amended at the invalid configuration (4, 4). -/
theorem chunker_accepts_invalid_overlap_witness :
    (4 : Int) ≥ 4 ∧
      (TextChunker.init 4 4).splitLongText 0 "abc".data =
        some ["abc".data] :=
  ⟨le_refl 4,
    (chunker_accepts_invalid_overlap 4 4 (le_refl 4)).2.2 "abc".data
      (by decide) 0⟩

/-- C4: `retrieve_with_fallback` is a strict escalation ladder.  Given
the values the four tiers would produce (tier 1: plain retrieve; tier
2: `retrieve_with_expansion`; tier 3: retrieve on the extracted
keywords; tier 4: retrieve with `min_score` forced to `0.2` and
`top_k` doubled), the call returns exactly the result of the first
non-empty tier (the empty list when all four are empty), leaves the
base retriever state unchanged, and its invocation trace shows each
tier invoked exactly when every earlier tier returned the empty
list. -/
theorem retrieve_with_fallback_ladder (env : HEnv) (st : RState)
    (query : String) (top_k : Nat)
    (t1 t2 t3 t4 : List RetrievalResult)
    (h1 : env.retrieveFn st query top_k = .ok t1)
    (h2 : retrieve_with_expansion env st query top_k = .ok t2)
    (h3 : env.retrieveFn st (env.extractKeywordsFn query) top_k = .ok t3)
    (h4 : env.retrieveFn { st with min_score := (2 : ℚ) / 10 } query
      (top_k * 2) = .ok t4) :
    retrieve_with_fallback env st query top_k =
      if t1 ≠ [] then (.ok t1, st, [1])
      else if t2 ≠ [] then (.ok t2, st, [1, 2])
      else if t3 ≠ [] then (.ok t3, st, [1, 2, 3])
      else (.ok t4, st, [1, 2, 3, 4]) := by
  unfold retrieve_with_fallback
  simp only [h1, h2, h3, h4]

/-- A pair of distinct retrieval results used by concrete scenarios. -/
def hitResultA : RetrievalResult :=
  { chunk_id := "a", text := "ta", metadata := [], score := 9/10
    query_variation := none }

/-- A second retrieval result with a distinct chunk id. -/
def hitResultB : RetrievalResult :=
  { chunk_id := "b", text := "tb", metadata := [], score := 8/10
    query_variation := none }

/-- Environment for the spec scenario of C4: the base retriever finds
nothing for the original query (tiers 1 and 2) and two hits for the
keyword string (tier 3). -/
def envLadder : HEnv :=
  { retrieveFn := fun _ q _ =>
      .ok (if q = "kw" then [hitResultA, hitResultB] else [])
    expandFn := fun q => [q]
    extractKeywordsFn := fun _ => "kw" }

/-- Witness for C4 at the spec scenario: tiers 1 and 2 empty, tier 3
returns two hits, so the call returns those two hits with trace
`[1, 2, 3]` — tier 4 is never invoked. -/
theorem retrieve_with_fallback_ladder_witness :
    envLadder.retrieveFn ⟨5, 7/10⟩ "orig" 5 = .ok [] ∧
      retrieve_with_fallback envLadder ⟨5, 7/10⟩ "orig" 5 =
        (.ok [hitResultA, hitResultB], ⟨5, 7/10⟩, [1, 2, 3]) := by
  constructor
  · rfl
  · have h := retrieve_with_fallback_ladder envLadder ⟨5, 7/10⟩ "orig" 5
      [] [] [hitResultA, hitResultB] [] rfl rfl rfl rfl
    simpa using h

/-- Environment for the counterexample to C5: the base retriever
returns the empty list for the ordinary calls (issued with
`top_k = 5`) but raises on the tier-4 call (the only one issued with
the doubled `top_k = 10`). -/
def envTier4Raises : HEnv :=
  { retrieveFn := fun _ _ k => if k = 10 then .error () else .ok []
    expandFn := fun q => [q]
    extractKeywordsFn := fun q => q }

/-- Counterexample to C5: the tier-4 write-back of `min_score` is a
plain assignment placed after the retrieve call, not a try/finally.
With a base retriever whose tier-4 call raises, the exception
propagates out of `retrieve_with_fallback` and the base retriever is
left with `min_score = 0.2` instead of its original `0.7`. -/
theorem fallback_min_score_not_restored_counterexample :
    retrieve_with_fallback envTier4Raises ⟨5, 7/10⟩ "q" 5 =
        (.error (), ⟨5, (2 : ℚ) / 10⟩, [1, 2, 3, 4]) ∧
      (7 : ℚ) / 10 ≠ 2 / 10 := by
  constructor
  · rfl
  · norm_num

/-- C5 amended: whenever `retrieve_with_fallback` completes normally
(returns a result list rather than propagating an exception), the base
retriever state — in particular `min_score` — is restored to exactly
its value before the call; but when the tier-4 retrieve call raises,
the exception propagates with `min_score` left at the floor `0.2`
(shown by the counterexample), because the restore is a plain
assignment after the call rather than a try/finally. -/
theorem fallback_restores_state_on_normal_return (env : HEnv)
    (st : RState) (query : String) (top_k : Nat)
    (res : List RetrievalResult)
    (h : (retrieve_with_fallback env st query top_k).1 = .ok res) :
    (retrieve_with_fallback env st query top_k).2.1 = st := by
  unfold retrieve_with_fallback at h ⊢
  cases h1 : env.retrieveFn st query top_k with
  | error e => simp only [h1] at h; exact absurd h (by simp)
  | ok t1 =>
    simp only [h1] at h ⊢
    by_cases e1 : t1 = []
    · subst e1
      simp only [ne_eq, not_true_eq_false, if_false] at h ⊢
      cases h2 : retrieve_with_expansion env st query top_k with
      | error e => simp only [h2] at h; exact absurd h (by simp)
      | ok t2 =>
        simp only [h2] at h ⊢
        by_cases e2 : t2 = []
        · subst e2
          simp only [ne_eq, not_true_eq_false, if_false] at h ⊢
          cases h3 : env.retrieveFn st (env.extractKeywordsFn query)
            top_k with
          | error e => simp only [h3] at h; exact absurd h (by simp)
          | ok t3 =>
            simp only [h3] at h ⊢
            by_cases e3 : t3 = []
            · subst e3
              simp only [ne_eq, not_true_eq_false, if_false] at h ⊢
              cases h4 : env.retrieveFn
                { st with min_score := (2 : ℚ) / 10 } query
                (top_k * 2) with
              | error e => simp only [h4] at h; exact absurd h (by simp)
              | ok t4 => simp only [h4]
            · simp [e3]
        · simp [e2]
    · simp [e1]

/-- All-quiet environment: every tier returns the empty list and
nothing raises. -/
def envAllEmpty : HEnv :=
  { retrieveFn := fun _ _ _ => .ok []
    expandFn := fun q => [q]
    extractKeywordsFn := fun q => q }

/-- Witness for C5 amended: a normally completing call (all four tiers
empty) leaves the base retriever state unchanged. -/
theorem fallback_restores_state_witness :
    (retrieve_with_fallback envAllEmpty ⟨5, 7/10⟩ "q" 5).1 = .ok [] ∧
      (retrieve_with_fallback envAllEmpty ⟨5, 7/10⟩ "q" 5).2.1 =
        ⟨5, 7/10⟩ :=
  ⟨rfl, fallback_restores_state_on_normal_return envAllEmpty ⟨5, 7/10⟩
    "q" 5 [] rfl⟩

/-! ### Divergence of the window splitter

`rfind` returns the sentinel `-1` when the character is absent, and the
guard `last_period > len(chunk) - 100` compares that sentinel against
`len(chunk) - 100`, which is negative whenever the window is shorter
than 100 characters.  The cut then lands at `start + (-1) + 1 = start`:
the loop emits an empty window and moves `start` backwards by
`overlap`, never reaching `len(text)`. -/

theorem rfindAux_of_not_mem (ch : Char) :
    ∀ (s : List Char) (i best : Int), (∀ c ∈ s, c ≠ ch) →
      rfindAux ch s i best = best := by
  intro s
  induction s with
  | nil => intro i best h; rfl
  | cons c cs ih =>
    intro i best h
    have hc : c ≠ ch := h c (List.mem_cons_self c cs)
    simp only [rfindAux, if_neg hc]
    exact ih (i + 1) best fun d hd => h d (List.mem_cons_of_mem c hd)

theorem rfind_of_not_mem (ch : Char) (s : List Char)
    (h : ∀ c ∈ s, c ≠ ch) : rfind ch s = -1 :=
  rfindAux_of_not_mem ch s 0 (-1) h

theorem pySlice_sublist (t : List Char) (a b : Int) :
    List.Sublist (pySlice t a b) t :=
  (List.drop_sublist _ _).trans (List.take_sublist _ _)

theorem pySlice_length_le (t : List Char) (a b : Int) :
    (pySlice t a b).length ≤ t.length :=
  (pySlice_sublist t a b).length_le

theorem pySlice_same (t : List Char) (a : Int) : pySlice t a a = [] := by
  unfold pySlice
  refine List.drop_eq_nil_of_le ?_
  rw [List.length_take]
  exact min_le_left _ _

/-- When the window contains neither a period nor a comma and the text
is shorter than 100 characters (so `len(chunk) - 100` is below the
`rfind` sentinel `-1`), the snapped end of a non-final window is
`start` itself. -/
theorem snapEnd_stuck (text : List Char) (chunk_size start : Int)
    (hp : '.' ∉ text) (hc : ',' ∉ text) (hlen : text.length ≤ 98)
    (he : start + chunk_size < (text.length : Int)) :
    snapEnd text chunk_size start = start := by
  unfold snapEnd
  have hchunk := pySlice_sublist text start (start + chunk_size)
  have hp2 : rfind '.' (pySlice text start (start + chunk_size)) = -1 :=
    rfind_of_not_mem _ _ fun c hcm hceq => hp (hceq ▸ hchunk.subset hcm)
  have hlen2 := pySlice_length_le text start (start + chunk_size)
  rw [if_pos he, hp2, if_pos (by omega)]
  omega

/-- With a window smaller than the text, no period/comma anywhere, and
a text shorter than 100 characters, the splitter loop never exits from
any non-positive start: every iteration emits the empty window at
`start` and retreats to `start - overlap`. -/
theorem splitLoop_stuck (text : List Char) (chunk_size chunk_overlap : Int)
    (hp : '.' ∉ text) (hc : ',' ∉ text) (hlen : text.length ≤ 98)
    (hcs : chunk_size < (text.length : Int)) (hcs0 : 0 ≤ chunk_size)
    (hco : 1 ≤ chunk_overlap) :
    ∀ (fuel : Nat) (start : Int) (acc : List (List Char)), start ≤ 0 →
      splitLoop text chunk_size chunk_overlap fuel start acc = none := by
  intro fuel
  induction fuel with
  | zero =>
    intro start acc h
    have hn : ¬ start ≥ (text.length : Int) := by omega
    simp only [splitLoop, if_neg hn]
  | succ f ih =>
    intro start acc h
    have hn : ¬ start ≥ (text.length : Int) := by omega
    have hsnap : snapEnd text chunk_size start = start :=
      snapEnd_stuck text chunk_size start hp hc hlen (by omega)
    simp only [splitLoop, if_neg hn, hsnap, pySlice_same]
    exact ih (start - chunk_overlap) _ (by omega)

/-- C3 (code divergence): the spec scenario
`split("abcdefghij", window_size=4, overlap=1)` does not produce
`["abcd","defg","ghij"]` — the loop never terminates.  The first
window `"abcd"` contains no period or comma, `rfind` returns `-1`,
and `-1 > 4 - 100` holds, so the cut is placed at
`start + (-1) + 1 = start = 0`: an empty chunk is emitted and `start`
becomes `-1`, then `-2`, ... — always below `len(text)`.  Formally:
the loop exhausts every fuel bound. -/
theorem split_window4_overlap1_diverges (fuel : Nat) :
    (TextChunker.init 4 1).splitLongText fuel "abcdefghij".data = none := by
  unfold TextChunker.splitLongText split_long_text TextChunker.init
  rw [if_neg (by decide)]
  exact splitLoop_stuck "abcdefghij".data 4 1 (by decide) (by decide)
    (by decide) (by decide) (by decide) (by decide) fuel 0 [] le_rfl

/-- C2 (code divergence): termination fails even within the required
configuration range `0 <= overlap < window_size`.  On
`split_long_text(".aaaa", chunk_size=4, chunk_overlap=1)` the first
window `".aaa"` has its last period at index 0, `0 > 4 - 100` holds, so
the cut lands at index 1, the emitted chunk is `"."`, and the new start
is `1 - 1 = 0`: the loop re-runs the identical iteration forever.  The
loop exhausts every fuel bound from that state. -/
theorem splitLoop_period_stuck (fuel : Nat) :
    ∀ acc, splitLoop ".aaaa".data 4 1 fuel 0 acc = none := by
  induction fuel with
  | zero => intro acc; rfl
  | succ f ih =>
    intro acc
    have hstep : splitLoop ".aaaa".data 4 1 (f + 1) 0 acc =
        splitLoop ".aaaa".data 4 1 f 0 (acc ++ [['.']]) := rfl
    rw [hstep]
    exact ih _

/-- C2 (code divergence, top level): `split_long_text(".aaaa", 4, 1)` —
a valid configuration, `overlap=1 < window_size=4` — never terminates:
it exhausts every fuel bound. -/
theorem split_period_head_diverges (fuel : Nat) :
    split_long_text fuel ".aaaa".data 4 1 = none := by
  unfold split_long_text
  rw [if_neg (by decide)]
  exact splitLoop_period_stuck fuel []

/-! ### The threshold relaxation of `Retriever.retrieve` -/

/-- A diagnostic hit whose score (1) lies below the threshold (5) used
in the C1 scenarios. -/
def hitLow : Hit :=
  { id := "a", score := 1, text := "t", metadata := [] }

/-- Environment for the counterexample to C1: the unthresholded
diagnostic search returns one hit scoring below `min_score`, the
primary thresholded search returns nothing. -/
def envRefill : REnv :=
  { getClient := .ok ()
    collectionInfo := .ok 5
    embed := .ok [1]
    searchNoThresh := .ok [hitLow]
    searchThresh := .ok [] }

/-- Counterexample to C1: with `min_score = 5`, the client-side
min_score-filtered diagnostic set is empty and the primary thresholded
search is empty, yet `retrieve` does not return the empty list — the
debug-refill branch (`filtered_results = search_results_all[:k]`)
substitutes the raw, below-threshold diagnostic hits.  The claimed
substitution trigger ("client-side min_score-filtered diagnostic set
non-empty") and its final clause ("both empty implies empty result")
are both violated at this input. -/
theorem retrieve_refill_counterexample :
    retrieve envRefill ⟨3, 5⟩ (some 3) =
        [{ chunk_id := "a", text := "t", metadata := [], score := 1,
            query_variation := none }] ∧
      [hitLow].filter (fun r => (5 : ℚ) ≤ r.score) = [] ∧
        envRefill.searchThresh = .ok ([] : List Hit) ∧
          (1 : ℚ) < 5 := by
  refine ⟨rfl, by decide, rfl, by decide⟩

/-- C1 amended: assuming the index-side thresholded search honours the
threshold, a score below `min_score` can be returned only via the
substitution path, and then only through the debug refill: the primary
thresholded search returned nothing, the min_score-filter over the
diagnostic hits removed everything, and the raw diagnostic search was
non-empty.  The empty-result guarantee accordingly needs the raw
diagnostic set (not merely its min_score-filtered subset) to be empty:
when the primary search and the raw unthresholded diagnostic search
both return nothing, `retrieve` returns the empty list. -/
theorem retrieve_threshold_amended (env : REnv) (st : RState)
    (top_k : Option Nat) (allRes primary : List Hit)
    (hall : env.searchNoThresh = .ok allRes)
    (hprim : env.searchThresh = .ok primary)
    (hhon : ∀ r ∈ primary, st.min_score ≤ r.score) :
    (allRes = [] → primary = [] → retrieve env st top_k = []) ∧
      ∀ res ∈ retrieve env st top_k, res.score < st.min_score →
        primary = [] ∧
          allRes.filter (fun r => st.min_score ≤ r.score) = [] ∧
            allRes ≠ [] := by
  unfold retrieve
  cases hg : env.getClient with
  | error e => exact ⟨fun _ _ => rfl, fun res hres => absurd hres (by simp)⟩
  | ok u =>
    cases hcoll : env.collectionInfo with
    | error e =>
      exact ⟨fun _ _ => rfl, fun res hres => absurd hres (by simp)⟩
    | ok vc =>
      by_cases hvc : vc = 0
      · simp only [hvc, if_pos rfl]
        exact ⟨fun _ _ => rfl, fun res hres => absurd hres (by simp)⟩
      · simp only [if_neg hvc]
        cases hemb : env.embed with
        | error e =>
          exact ⟨fun _ _ => rfl, fun res hres => absurd hres (by simp)⟩
        | ok emb =>
          by_cases hembe : emb = []
          · simp only [hembe, if_pos rfl]
            exact ⟨fun _ _ => rfl, fun res hres => absurd hres (by simp)⟩
          · simp only [if_neg hembe, hall, hprim]
            constructor
            · intro hAllNil hPrimNil
              subst hAllNil
              subst hPrimNil
              simp [filteredResults]
            · intro res hres hlow
              by_cases hcond :
                  primary = [] ∧
                    filteredResults allRes st.min_score
                      (top_k.getD st.top_k) ≠ []
              · rw [if_pos hcond] at hres
                rcases List.mem_map.mp hres with ⟨hit, hmem, hfmt⟩
                have hmem2 := List.mem_of_mem_take hmem
                have hAllNe : allRes ≠ [] := by
                  intro hAllNil
                  apply hcond.2
                  simp [filteredResults, hAllNil]
                unfold filteredResults at hmem2
                rw [if_pos hAllNe] at hmem2
                by_cases hfil :
                    allRes.filter (fun r => st.min_score ≤ r.score) = []
                · exact ⟨hcond.1, hfil, hAllNe⟩
                · rw [if_neg hfil] at hmem2
                  have := (List.mem_filter.mp hmem2).2
                  have hscore : st.min_score ≤ hit.score :=
                    of_decide_eq_true this
                  rw [← hfmt] at hlow
                  exact absurd hlow (not_lt.mpr hscore)
              · rw [if_neg hcond] at hres
                rcases List.mem_map.mp hres with ⟨hit, hmem, hfmt⟩
                have hscore := hhon hit hmem
                rw [← hfmt] at hlow
                exact absurd hlow (not_lt.mpr hscore)

/-- Quiet environment: both searches come back empty. -/
def envBothEmpty : REnv :=
  { getClient := .ok ()
    collectionInfo := .ok 5
    embed := .ok [1]
    searchNoThresh := .ok []
    searchThresh := .ok [] }

/-- Witness for C1 amended: with both searches empty (and the threshold
trivially honoured), `retrieve` returns the empty list. -/
theorem retrieve_threshold_amended_witness :
    envBothEmpty.searchNoThresh = .ok ([] : List Hit) ∧
      retrieve envBothEmpty ⟨3, 5⟩ (some 3) = [] :=
  ⟨rfl,
    (retrieve_threshold_amended envBothEmpty ⟨3, 5⟩ (some 3) [] [] rfl rfl
      (by intro r hr; exact absurd hr (by simp))).1 rfl rfl⟩

/-! ### Termination of the splitter at the default configuration

At the class defaults `chunk_size=512`, `chunk_overlap=50` every
non-final window has exactly 512 characters, so the snap guard
`last_period > 512 - 100` can only fire for a cut index of at least
413; the start therefore advances by at least `414 - 50 = 364` per
iteration and the loop terminates within `len(text)` iterations. -/

theorem pySlice_length_eq (t : List Char) (a b : Int) (h0 : 0 ≤ a)
    (hab : a ≤ b) (hb : b ≤ (t.length : Int)) :
    ((pySlice t a b).length : Int) = b - a := by
  unfold pySlice pyIdx
  rw [if_neg (by omega), if_neg (by omega)]
  rw [List.length_drop, List.length_take]
  omega

theorem snapEnd_ge_512 (text : List Char) (start : Int) (h0 : 0 ≤ start) :
    start + 414 ≤ snapEnd text 512 start := by
  simp only [snapEnd]
  by_cases he : start + 512 < (text.length : Int)
  · rw [if_pos he]
    have hlen : ((pySlice text start (start + 512)).length : Int) = 512 := by
      have h2 := pySlice_length_eq text start (start + 512) h0 (by omega)
        (by omega)
      omega
    rw [hlen]
    split_ifs with h1 h2 <;> omega
  · rw [if_neg he]
    omega

theorem splitLoop_terminates_512 (text : List Char) :
    ∀ (fuel : Nat) (start : Int) (acc : List (List Char)), 0 ≤ start →
      (text.length : Int) ≤ start + 364 * (fuel : Int) →
      ∃ suffix,
        splitLoop text 512 50 fuel start acc = some (acc ++ suffix) ∧
          (start < (text.length : Int) → suffix ≠ []) := by
  intro fuel
  induction fuel with
  | zero =>
    intro start acc h0 hb
    have hexit : start ≥ (text.length : Int) := by push_cast at hb; omega
    refine ⟨[], ?_, fun hlt => absurd hlt (by omega)⟩
    simp only [splitLoop, if_pos hexit, List.append_nil]
  | succ f ih =>
    intro start acc h0 hb
    by_cases hexit : start ≥ (text.length : Int)
    · refine ⟨[], ?_, fun hlt => absurd hlt (by omega)⟩
      simp only [splitLoop, if_pos hexit, List.append_nil]
    · have hsnap := snapEnd_ge_512 text start h0
      obtain ⟨suf, hsuf, _⟩ := ih (snapEnd text 512 start - 50)
        (acc ++ [stripChars (pySlice text start (snapEnd text 512 start))])
        (by omega) (by push_cast at hb ⊢; omega)
      refine ⟨stripChars (pySlice text start (snapEnd text 512 start)) ::
        suf, ?_, by simp⟩
      simp only [splitLoop, if_neg hexit]
      rw [hsuf, List.append_assoc]
      rfl

theorem split_long_text_512_total (text : List Char) (fuel : Nat)
    (hf : text.length ≤ fuel) :
    ∃ out, split_long_text fuel text 512 50 = some out ∧ out ≠ [] := by
  unfold split_long_text
  by_cases hle : (text.length : Int) ≤ 512
  · exact ⟨[text], by rw [if_pos hle], by simp⟩
  · rw [if_neg hle]
    have hfi : (text.length : Int) ≤ (fuel : Int) := by exact_mod_cast hf
    obtain ⟨suf, hs, hne⟩ := splitLoop_terminates_512 text fuel 0 []
      le_rfl (by omega)
    exact ⟨suf, by simpa using hs, hne (by omega)⟩

/-! ### The short-paragraph drop threshold -/

theorem collapseAux_length_le :
    ∀ (l : List Char) (b : Bool), (collapseAux b l).length ≤ l.length := by
  intro l
  induction l with
  | nil => intro b; exact le_rfl
  | cons c cs ih =>
    intro b
    simp only [collapseAux]
    split_ifs with h1 h2
    · exact (ih true).trans (by simp)
    · simpa using ih true
    · simpa using ih false

theorem dropTrailingSpaces_length_le (l : List Char) :
    (dropTrailingSpaces l).length ≤ l.length := by
  induction l with
  | nil => exact le_rfl
  | cons c cs ih =>
    simp only [dropTrailingSpaces]
    split_ifs with h1
    · simp
    · simpa using ih

theorem stripChars_length_le (l : List Char) :
    (stripChars l).length ≤ l.length :=
  (dropTrailingSpaces_length_le _).trans
    ((List.dropWhile_suffix isSpaceChar).sublist).length_le

theorem normalizeChars_length_le (l : List Char) :
    (normalizeChars l).length ≤ l.length := by
  refine (stripChars_length_le _).trans ?_
  refine (collapseAux_length_le _ false).trans ?_
  simp [keepAllowed]

theorem splitOnChar_mem_length (sep : Char) :
    ∀ (l : List Char) (p : List Char), p ∈ splitOnChar sep l →
      p.length ≤ l.length := by
  intro l
  induction l with
  | nil =>
    intro p hp
    simp only [splitOnChar, List.mem_singleton] at hp
    simp [hp]
  | cons c cs ih =>
    intro p hp
    simp only [splitOnChar] at hp
    by_cases hc : c = sep
    · rw [if_pos hc] at hp
      rcases List.mem_cons.mp hp with h | h
      · simp [h]
      · exact (ih p h).trans (by simp)
    · rw [if_neg hc] at hp
      cases hr : splitOnChar sep cs with
      | nil => rw [hr] at hp; simp at hp; simp [hp]
      | cons q qs =>
        rw [hr] at hp
        rcases List.mem_cons.mp hp with h | h
        · have hq : q.length ≤ cs.length :=
            ih q (hr ▸ List.mem_cons_self q qs)
          simp [h, Nat.succ_le_succ hq]
        · have := ih p (hr ▸ List.mem_cons_of_mem q h)
          exact this.trans (by simp)

theorem paraChunks_index (idx : Nat) (pieces : List (List Char)) :
    ∀ c ∈ paraChunks idx pieces, c.paragraph_index = idx := by
  intro c hc
  rcases List.mem_map.mp hc with ⟨x, hx, hfx⟩
  rw [← hfx]

theorem paraChunks_length (idx : Nat) (pieces : List (List Char)) :
    (paraChunks idx pieces).length = pieces.length := by
  simp [paraChunks]

/-- The loop of `split_by_paragraph` at configuration (512, 50): it
returns (no fuel exhaustion), every produced chunk carries a paragraph
index at or beyond the starting index, a paragraph whose normalized
text is longer than 10 characters contributes at least one chunk, and a
paragraph whose normalized text has 10 or fewer characters contributes
none. -/
theorem paraLoop_512 (fuel : Nat) :
    ∀ (ps : List (List Char)) (idx : Nat),
      (∀ p ∈ ps, (normalizeChars p).length ≤ fuel) →
      ∃ chunks,
        paraLoop (TextChunker.init 512 50) fuel idx ps = some chunks ∧
          (∀ c ∈ chunks, idx ≤ c.paragraph_index) ∧
          ∀ (j : Nat) (hj : j < ps.length),
            (10 < (normalizeChars (ps.get ⟨j, hj⟩)).length →
              ∃ c ∈ chunks, c.paragraph_index = idx + j) ∧
            ((normalizeChars (ps.get ⟨j, hj⟩)).length ≤ 10 →
              ∀ c ∈ chunks, c.paragraph_index ≠ idx + j) := by
  intro ps
  induction ps with
  | nil =>
    intro idx hfuel
    exact ⟨[], rfl, by simp, fun j hj => absurd hj (by simp)⟩
  | cons p ps ih =>
    intro idx hfuel
    obtain ⟨rest, hrest, hge, hprop⟩ := ih (idx + 1)
      fun q hq => hfuel q (List.mem_cons_of_mem p hq)
    by_cases h10 : 10 < (normalizeChars p).length
    · have hguard : normalizeChars p ≠ [] ∧
          ((normalizeChars p).length : Int) > 10 :=
        ⟨List.ne_nil_of_length_pos (by omega), by exact_mod_cast h10⟩
      obtain ⟨pieces, hpieces, hpne⟩ := split_long_text_512_total
        (normalizeChars p) fuel (hfuel p (List.mem_cons_self p ps))
      have hsplit : (TextChunker.init 512 50).splitLongText fuel
          (normalizeChars p) = some pieces := hpieces
      refine ⟨paraChunks idx pieces ++ rest, ?_, ?_, ?_⟩
      · simp only [paraLoop, if_pos hguard, hsplit, hrest]
      · intro c hc
        rcases List.mem_append.mp hc with h | h
        · rw [paraChunks_index idx pieces c h]
        · exact (Nat.le_succ idx).trans (hge c h)
      · intro j hj
        cases j with
        | zero =>
          constructor
          · intro _
            have hlen : (paraChunks idx pieces).length = pieces.length :=
              paraChunks_length idx pieces
            have hne2 : paraChunks idx pieces ≠ [] := by
              intro hnil
              rw [hnil] at hlen
              exact hpne (List.eq_nil_of_length_eq_zero hlen.symm)
            obtain ⟨c, hc⟩ := List.exists_mem_of_ne_nil _ hne2
            refine ⟨c, List.mem_append_left rest hc, ?_⟩
            rw [paraChunks_index idx pieces c hc]
            omega
          · intro hle
            exact absurd hle (by simp at h10 ⊢; omega)
        | succ j =>
          have hj2 : j < ps.length := by simpa using hj
          constructor
          · intro hgt
            obtain ⟨c, hc, hcidx⟩ := (hprop j hj2).1 (by simpa using hgt)
            exact ⟨c, List.mem_append_right _ hc, by omega⟩
          · intro hle c hc
            rcases List.mem_append.mp hc with h | h
            · rw [paraChunks_index idx pieces c h]
              omega
            · have := (hprop j hj2).2 (by simpa using hle) c h
              omega
    · have hguard : ¬ (normalizeChars p ≠ [] ∧
          ((normalizeChars p).length : Int) > 10) := by
        rintro ⟨-, hgt⟩
        have : 10 < (normalizeChars p).length := by exact_mod_cast hgt
        exact h10 this
      refine ⟨rest, ?_, ?_, ?_⟩
      · simp only [paraLoop, if_neg hguard, hrest]
      · intro c hc
        exact (Nat.le_succ idx).trans (hge c hc)
      · intro j hj
        cases j with
        | zero =>
          constructor
          · intro hgt
            exact absurd hgt (by simpa using h10)
          · intro _ c hc
            have := hge c hc
            omega
        | succ j =>
          have hj2 : j < ps.length := by simpa using hj
          constructor
          · intro hgt
            obtain ⟨c, hc, hcidx⟩ := (hprop j hj2).1 (by simpa using hgt)
            exact ⟨c, hc, by omega⟩
          · intro hle c hc
            have := (hprop j hj2).2 (by simpa using hle) c hc
            omega

/-- Counterexample to C8: the paragraph `"abcdefghij"` normalizes to
exactly 10 characters, which the claim says is enough to survive, yet
`split_by_paragraph` drops it (the source keeps a paragraph only when
`len(normalized_para) > 10`) and produces no chunks at all. -/
theorem split_by_paragraph_ten_chars_counterexample :
    (TextChunker.init 512 50).split_by_paragraph 10 "abcdefghij".data =
        some [] ∧
      (normalizeChars "abcdefghij".data).length = 10 := by
  exact ⟨rfl, rfl⟩

/-- C8 amended: at the default configuration (512, 50),
`split_by_paragraph` drops exactly those paragraphs whose normalized
text has 10 or fewer characters: a paragraph whose normalized text is
strictly longer than 10 characters produces at least one chunk, and a
paragraph whose normalized text has 10 or fewer characters (not "fewer
than 10" as claimed — the source comparison is strict, `> 10`)
produces none.  The call is total: fuel `len(text)` always suffices. -/
theorem split_by_paragraph_drop_short (text : List Char) :
    ∃ chunks,
      (TextChunker.init 512 50).split_by_paragraph text.length text =
          some chunks ∧
        ∀ (j : Nat) (hj : j < (splitOnChar '\n' text).length),
          (10 < (normalizeChars
              ((splitOnChar '\n' text).get ⟨j, hj⟩)).length →
            ∃ c ∈ chunks, c.paragraph_index = j) ∧
          ((normalizeChars
              ((splitOnChar '\n' text).get ⟨j, hj⟩)).length ≤ 10 →
            ∀ c ∈ chunks, c.paragraph_index ≠ j) := by
  obtain ⟨chunks, hsome, -, hprop⟩ := paraLoop_512 text.length
    (splitOnChar '\n' text) 0
    fun p hp => (normalizeChars_length_le p).trans
      (splitOnChar_mem_length '\n' text p hp)
  refine ⟨chunks, hsome, fun j hj => ?_⟩
  have := hprop j hj
  rwa [Nat.zero_add] at this

/-- Witness for C8 amended at a concrete two-paragraph text: the first
paragraph (19 normalized characters) yields a chunk, the 5-character
second paragraph yields none. -/
theorem split_by_paragraph_drop_short_witness :
    ∃ chunks,
      (TextChunker.init 512 50).split_by_paragraph
          "good paragraph here\nshort".data.length
          "good paragraph here\nshort".data = some chunks ∧
        (∃ c ∈ chunks, c.paragraph_index = 0) ∧
          ∀ c ∈ chunks, c.paragraph_index ≠ 1 := by
  obtain ⟨chunks, hsome, hprop⟩ :=
    split_by_paragraph_drop_short "good paragraph here\nshort".data
  exact ⟨chunks, hsome, (hprop 0 (by decide)).1 (by decide),
    (hprop 1 (by decide)).2 (by decide)⟩

/-! ### Idempotence of the normalizer

The output of `normalize_text` is in canonical form: every character
belongs to the kept class, every whitespace character is a plain space,
no two adjacent characters are both whitespace, and the first and last
characters are not whitespace.  Each stage of a second application
fixes such a list. -/

/-- No two adjacent whitespace characters. -/
def noTwoSpaces : List Char → Bool
  | [] => true
  | [_] => true
  | a :: b :: rest =>
    (!(isSpaceChar a && isSpaceChar b)) && noTwoSpaces (b :: rest)

/-- The first character, if any, is not whitespace. -/
def headOk : List Char → Bool
  | [] => true
  | c :: _ => !(isSpaceChar c)

theorem noTwoSpaces_tail (x : Char) (m : List Char)
    (h : noTwoSpaces (x :: m) = true) : noTwoSpaces m = true := by
  cases m with
  | nil => rfl
  | cons y ys =>
    simp only [noTwoSpaces, Bool.and_eq_true] at h
    exact h.2

theorem noTwoSpaces_head2 (a b : Char) (m : List Char)
    (h : noTwoSpaces (a :: b :: m) = true) :
    (isSpaceChar a && isSpaceChar b) = false := by
  simp only [noTwoSpaces, Bool.and_eq_true] at h
  have h1 := h.1
  cases hx : (isSpaceChar a && isSpaceChar b) with
  | false => rfl
  | true => rw [hx] at h1; exact absurd h1 (by decide)

theorem pyToLower_fix (c : Char) (h : isKeptChar c = true) :
    pyToLower c = c := by
  unfold pyToLower
  refine if_neg ?_
  rintro ⟨h1, h2⟩
  simp only [isKeptChar, isSpaceChar, Bool.or_eq_true, Bool.and_eq_true,
    decide_eq_true_eq] at h
  rcases h with
    ((((⟨h3, h4⟩ | ⟨h3, h4⟩) | (((((h | h) | h) | h) | h) | h)) | h) | h)
      | h | h
  all_goals try omega
  all_goals try subst h
  all_goals try (rename_i hx; subst hx)
  all_goals revert h1 h2
  all_goals decide

theorem keepAllowed_kept (l : List Char) :
    ∀ c ∈ keepAllowed l, isKeptChar c = true := by
  intro c hc
  rcases List.mem_map.mp hc with ⟨a, ha, hfa⟩
  by_cases hk : isKeptChar a = true
  · rw [← hfa, if_pos hk]; exact hk
  · rw [← hfa, if_neg hk]; decide

theorem keepAllowed_fix (l : List Char) (h : ∀ c ∈ l, isKeptChar c = true) :
    keepAllowed l = l := by
  induction l with
  | nil => rfl
  | cons c cs ih =>
    simp only [keepAllowed, List.map_cons]
    rw [if_pos (h c (List.mem_cons_self c cs))]
    have := ih fun d hd => h d (List.mem_cons_of_mem c hd)
    simp only [keepAllowed] at this
    rw [this]

theorem map_pyToLower_fix (l : List Char)
    (h : ∀ c ∈ l, isKeptChar c = true) : l.map pyToLower = l := by
  induction l with
  | nil => rfl
  | cons c cs ih =>
    simp only [List.map_cons]
    rw [pyToLower_fix c (h c (List.mem_cons_self c cs)),
      ih fun d hd => h d (List.mem_cons_of_mem c hd)]

theorem collapseAux_mem :
    ∀ (l : List Char) (b : Bool) (c : Char), c ∈ collapseAux b l →
      c = ' ' ∨ c ∈ l := by
  intro l
  induction l with
  | nil => intro b c hc; exact absurd hc (by simp [collapseAux])
  | cons x xs ih =>
    intro b c hc
    simp only [collapseAux] at hc
    by_cases hsp : isSpaceChar x = true
    · rw [if_pos hsp] at hc
      by_cases hb : b = true
      · rw [if_pos hb] at hc
        rcases ih true c hc with h | h
        · exact Or.inl h
        · exact Or.inr (List.mem_cons_of_mem x h)
      · rw [if_neg hb] at hc
        rcases List.mem_cons.mp hc with h | h
        · exact Or.inl h
        · rcases ih true c h with h2 | h2
          · exact Or.inl h2
          · exact Or.inr (List.mem_cons_of_mem x h2)
    · rw [if_neg hsp] at hc
      rcases List.mem_cons.mp hc with h | h
      · exact Or.inr (h ▸ List.mem_cons_self x xs)
      · rcases ih false c h with h2 | h2
        · exact Or.inl h2
        · exact Or.inr (List.mem_cons_of_mem x h2)

theorem collapseAux_space_blank :
    ∀ (l : List Char) (b : Bool) (c : Char), c ∈ collapseAux b l →
      isSpaceChar c = true → c = ' ' := by
  intro l
  induction l with
  | nil => intro b c hc; exact absurd hc (by simp [collapseAux])
  | cons x xs ih =>
    intro b c hc hsc
    simp only [collapseAux] at hc
    by_cases hsp : isSpaceChar x = true
    · rw [if_pos hsp] at hc
      by_cases hb : b = true
      · rw [if_pos hb] at hc
        exact ih true c hc hsc
      · rw [if_neg hb] at hc
        rcases List.mem_cons.mp hc with h | h
        · exact h
        · exact ih true c h hsc
    · rw [if_neg hsp] at hc
      rcases List.mem_cons.mp hc with h | h
      · exact absurd (h ▸ hsc) hsp
      · exact ih false c h hsc

theorem collapseAux_canonical :
    ∀ (l : List Char) (b : Bool),
      noTwoSpaces (collapseAux b l) = true ∧
        (b = true → headOk (collapseAux b l) = true) := by
  intro l
  induction l with
  | nil => intro b; exact ⟨rfl, fun _ => rfl⟩
  | cons c cs ih =>
    intro b
    by_cases hsp : isSpaceChar c = true
    · by_cases hb : b = true
      · subst hb
        simp only [collapseAux, if_pos hsp, if_pos rfl]
        exact ⟨(ih true).1, fun _ => (ih true).2 rfl⟩
      · have hbf : b = false := Bool.eq_false_iff.mpr hb
        subst hbf
        simp only [collapseAux, if_pos hsp, Bool.false_eq_true, if_false]
        constructor
        · cases hX : collapseAux true cs with
          | nil => rfl
          | cons y ys =>
            have hho := (ih true).2 rfl
            rw [hX] at hho
            have hnt := (ih true).1
            rw [hX] at hnt
            simp only [noTwoSpaces, Bool.and_eq_true]
            refine ⟨?_, hnt⟩
            simp only [headOk] at hho
            simp [hho]
        · intro hcon; exact absurd hcon (by simp)
    · have hcol : ∀ b2 : Bool, collapseAux b2 (c :: cs) =
          c :: collapseAux false cs := by
        intro b2
        simp only [collapseAux, if_neg hsp]
      rw [hcol b]
      have hspf : isSpaceChar c = false := Bool.eq_false_iff.mpr hsp
      constructor
      · cases hX : collapseAux false cs with
        | nil => rfl
        | cons y ys =>
          have hnt := (ih false).1
          rw [hX] at hnt
          simp only [noTwoSpaces, Bool.and_eq_true]
          exact ⟨by simp [hspf], hnt⟩
      · intro _
        simp only [headOk, hspf]
        rfl

theorem collapseAux_fix :
    ∀ l : List Char,
      (∀ c ∈ l, isSpaceChar c = true → c = ' ') →
      noTwoSpaces l = true →
      collapseAux false l = l ∧
        (headOk l = true → collapseAux true l = l) := by
  intro l
  induction l with
  | nil => intro hsb hnt; exact ⟨rfl, fun _ => rfl⟩
  | cons c cs ih =>
    intro hsb hnt
    have hsb2 : ∀ d ∈ cs, isSpaceChar d = true → d = ' ' :=
      fun d hd => hsb d (List.mem_cons_of_mem c hd)
    have hnt2 : noTwoSpaces cs = true := noTwoSpaces_tail c cs hnt
    by_cases hsp : isSpaceChar c = true
    · have hc : c = ' ' := hsb c (List.mem_cons_self c cs) hsp
      have htail : collapseAux true cs = cs := by
        cases cs with
        | nil => rfl
        | cons y ys =>
          have h2 := noTwoSpaces_head2 c y ys hnt
          rw [hsp] at h2
          simp only [Bool.true_and] at h2
          refine (ih hsb2 hnt2).2 ?_
          simp [headOk, h2]
      constructor
      · subst hc
        simp [collapseAux, isSpaceChar, htail]
      · intro hho
        simp only [headOk, hsp] at hho
        exact absurd hho (by decide)
    · have h1 : collapseAux false (c :: cs) = c :: collapseAux false cs := by
        simp only [collapseAux, if_neg hsp]
      have h2 : collapseAux true (c :: cs) = c :: collapseAux false cs := by
        simp only [collapseAux, if_neg hsp]
      rw [h1, h2, (ih hsb2 hnt2).1]
      exact ⟨rfl, fun _ => rfl⟩

theorem dropWhile_headOk (l : List Char) :
    headOk (l.dropWhile isSpaceChar) = true := by
  induction l with
  | nil => rfl
  | cons c cs ih =>
    by_cases hsp : isSpaceChar c = true
    · rw [List.dropWhile_cons, if_pos hsp]
      exact ih
    · rw [List.dropWhile_cons, if_neg hsp]
      simp only [headOk, Bool.eq_false_iff.mpr hsp]
      rfl

theorem dropWhile_fix (l : List Char) (h : headOk l = true) :
    l.dropWhile isSpaceChar = l := by
  cases l with
  | nil => rfl
  | cons c cs =>
    simp only [headOk] at h
    rw [List.dropWhile_cons, if_neg (by simp at h; simp [h])]

theorem dropWhile_noTwo (l : List Char) (h : noTwoSpaces l = true) :
    noTwoSpaces (l.dropWhile isSpaceChar) = true := by
  induction l with
  | nil => rfl
  | cons c cs ih =>
    by_cases hsp : isSpaceChar c = true
    · rw [List.dropWhile_cons, if_pos hsp]
      exact ih (noTwoSpaces_tail c cs h)
    · rw [List.dropWhile_cons, if_neg hsp]
      exact h

theorem dropTrailing_shape (x : Char) (xs : List Char) :
    dropTrailingSpaces (x :: xs) = [] ∨
      dropTrailingSpaces (x :: xs) = x :: dropTrailingSpaces xs := by
  simp only [dropTrailingSpaces]
  by_cases h : (dropTrailingSpaces xs = [] && isSpaceChar x) = true
  · rw [if_pos h]; exact Or.inl rfl
  · rw [if_neg h]; exact Or.inr rfl

theorem dropTrailing_mem :
    ∀ (l : List Char) (c : Char), c ∈ dropTrailingSpaces l → c ∈ l := by
  intro l
  induction l with
  | nil => intro c hc; exact absurd hc (by simp [dropTrailingSpaces])
  | cons x xs ih =>
    intro c hc
    rcases dropTrailing_shape x xs with hsh | hsh
    · rw [hsh] at hc
      exact absurd hc (by simp)
    · rw [hsh] at hc
      rcases List.mem_cons.mp hc with h | h
      · exact h ▸ List.mem_cons_self x xs
      · exact List.mem_cons_of_mem x (ih c h)

theorem dropTrailing_headOk (l : List Char) (h : headOk l = true) :
    headOk (dropTrailingSpaces l) = true := by
  cases l with
  | nil => rfl
  | cons c cs =>
    rcases dropTrailing_shape c cs with hsh | hsh
    · rw [hsh]; rfl
    · rw [hsh]; exact h

theorem dropTrailing_noTwo :
    ∀ l : List Char, noTwoSpaces l = true →
      noTwoSpaces (dropTrailingSpaces l) = true := by
  intro l
  induction l with
  | nil => intro h; rfl
  | cons c cs ih =>
    intro hnt
    rcases dropTrailing_shape c cs with hsh | hsh
    · rw [hsh]; rfl
    · rw [hsh]
      have hnt2 := ih (noTwoSpaces_tail c cs hnt)
      cases hr : dropTrailingSpaces cs with
      | nil => rfl
      | cons y ys =>
        rw [hr] at hnt2
        simp only [noTwoSpaces, Bool.and_eq_true]
        refine ⟨?_, hnt2⟩
        cases cs with
        | nil => exact absurd hr (by simp [dropTrailingSpaces])
        | cons d ds =>
          rcases dropTrailing_shape d ds with h2 | h2
          · rw [h2] at hr
            exact absurd hr (by simp)
          · rw [h2] at hr
            have hyd : y = d := (List.cons.injEq _ _ _ _ ▸ hr).1.symm
            subst hyd
            have hflat := noTwoSpaces_head2 c y ds hnt
            simp [hflat]

theorem dropTrailing_idem :
    ∀ l : List Char,
      dropTrailingSpaces (dropTrailingSpaces l) = dropTrailingSpaces l := by
  intro l
  induction l with
  | nil => rfl
  | cons c cs ih =>
    simp only [dropTrailingSpaces]
    by_cases h : (dropTrailingSpaces cs = [] && isSpaceChar c) = true
    · rw [if_pos h]; rfl
    · rw [if_neg h]
      simp only [dropTrailingSpaces, ih]
      rw [if_neg h]

theorem stripChars_headOk (l : List Char) :
    headOk (stripChars l) = true :=
  dropTrailing_headOk _ (dropWhile_headOk l)

theorem stripChars_noTwo (l : List Char) (h : noTwoSpaces l = true) :
    noTwoSpaces (stripChars l) = true :=
  dropTrailing_noTwo _ (dropWhile_noTwo l h)

theorem stripChars_mem (l : List Char) (c : Char)
    (h : c ∈ stripChars l) : c ∈ l :=
  ((List.dropWhile_suffix isSpaceChar).sublist).subset
    (dropTrailing_mem _ c h)

theorem stripChars_second (m : List Char) :
    stripChars (stripChars m) = stripChars m := by
  unfold stripChars
  rw [dropWhile_fix _ (dropTrailing_headOk _ (dropWhile_headOk m))]
  exact dropTrailing_idem _

theorem normalizeChars_canonical (l : List Char) :
    (∀ c ∈ normalizeChars l, isKeptChar c = true) ∧
      (∀ c ∈ normalizeChars l, isSpaceChar c = true → c = ' ') ∧
        noTwoSpaces (normalizeChars l) = true ∧
          headOk (normalizeChars l) = true := by
  refine ⟨?_, ?_, ?_, ?_⟩
  · intro c hc
    have hc2 := stripChars_mem _ c hc
    rcases collapseAux_mem _ false c hc2 with h | h
    · subst h; decide
    · exact keepAllowed_kept _ c h
  · intro c hc hsc
    exact collapseAux_space_blank _ false c (stripChars_mem _ c hc) hsc
  · exact stripChars_noTwo _ (collapseAux_canonical _ false).1
  · exact stripChars_headOk _

theorem normalizeChars_idem (l : List Char) :
    normalizeChars (normalizeChars l) = normalizeChars l := by
  obtain ⟨hkept, hblank, hnt, hho⟩ := normalizeChars_canonical l
  rw [show normalizeChars (normalizeChars l) =
      stripChars (collapseSpaces (keepAllowed
        ((normalizeChars l).map pyToLower))) from rfl]
  rw [map_pyToLower_fix _ hkept, keepAllowed_fix _ hkept]
  unfold collapseSpaces
  rw [(collapseAux_fix _ hblank hnt).1]
  exact stripChars_second (collapseSpaces (keepAllowed (l.map pyToLower)))

/-- C9: the normalizer is idempotent — for every string `x`,
`normalize_text(normalize_text(x)) == normalize_text(x)`.  The output
of one pass contains only kept lowercase-stable characters, its only
whitespace is single interior plain spaces, and it is trimmed, so the
lowercase, character-substitution, whitespace-collapse and strip stages
of a second pass all act as the identity. -/
theorem normalize_text_idempotent (s : String) :
    normalize_text (normalize_text s) = normalize_text s :=
  congrArg String.mk (normalizeChars_idem s.data)

end Rag
